import Mathlib

/-!
Verification of the Martian pipeline runtime core, embedded shallowly from
the Go sources (`martian/syntax` semantic checking and include resolution,
`martian/core` pipestance management).  Each definition mirrors one Go
function or data structure; theorems check the natural-language
specification's claims against those definitions.
-/

set_option maxHeartbeats 1000000

namespace Martian

/-- The closed set of node states (`MetadataState` constants in the Go
source).  In Go these are strings; here an enumeration. -/
inductive MetadataState where
  | Waiting
  | Ready
  | Queued
  | Running
  | Complete
  | Failed
  | DisabledState
  | ForkWaiting
  deriving DecidableEq, Repr

open MetadataState

/-- `Pipestance.GetState`, embedded over the lists of states of the frontier
nodes and of all nodes.  The Go method loops over `getFrontierNodes()`
twice (Failed, then Running), then twice over `allNodes()` computing the
`every` flags for DisabledState and for Complete-or-DisabledState. -/
def GetState (frontier allN : List MetadataState) : MetadataState :=
  if frontier.any (fun s => s == Failed) then Failed
  else if frontier.any (fun s => s == Running) then Running
  else if allN.all (fun s => s == DisabledState) then DisabledState
  else if allN.all (fun s => s == Complete || s == DisabledState) then Complete
  else ForkWaiting

/-- The aggregation prescribed by the specification's rules (spec section
4.7), written independently with quantifiers: Failed if any frontier node
is Failed; else Running if any frontier node is Running; else
DisabledState if every node is DisabledState; else Complete if every node
is Complete or DisabledState; else ForkWaiting. -/
noncomputable def specAggregateState (frontier allN : List MetadataState) :
    MetadataState :=
  open Classical in
  if ∃ s ∈ frontier, s = Failed then Failed
  else if ∃ s ∈ frontier, s = Running then Running
  else if ∀ s ∈ allN, s = DisabledState then DisabledState
  else if ∀ s ∈ allN, s = Complete ∨ s = DisabledState then Complete
  else ForkWaiting

end Martian

namespace Martian

/-- A semantic error, attributed in Go to a source location and message.
Only its identity matters for the control-flow claims. -/
structure SemErr where
  msg : String
  deriving DecidableEq, Repr

/-- The outcome of each of the six semantic passes of `Ast.compile`, in the
source's order.  Each Go pass returns `error` (here `Option SemErr`,
`none` meaning success).  The pass bodies are external to the claim; only
their results and the sequencing in `Ast.compile` are embedded. -/
structure AstPasses where
  compileTypes : Option SemErr
  compileCallables : Option SemErr
  compileStages : Option SemErr
  compilePipelineDecs : Option SemErr
  compilePipelineArgs : Option SemErr
  compileCall : Option SemErr
  deriving DecidableEq, Repr

/-- `Ast.compile`: run the six passes in order, returning the first error
and skipping the remaining passes, or `none` when every pass succeeds. -/
def Ast.compile (a : AstPasses) : Option SemErr :=
  match a.compileTypes with
  | some e => some e
  | none =>
    match a.compileCallables with
    | some e => some e
    | none =>
      match a.compileStages with
      | some e => some e
      | none =>
        match a.compilePipelineDecs with
        | some e => some e
        | none =>
          match a.compilePipelineArgs with
          | some e => some e
          | none => a.compileCall

end Martian

namespace Martian

/-- First error in a list of pass results: the value of a fail-fast chain. -/
def firstErr : List (Option SemErr) → Option SemErr
  | [] => none
  | none :: rest => firstErr rest
  | some e :: _ => some e

/-- The six pass results of `Ast.compile` in source order. -/
def passList (a : AstPasses) : List (Option SemErr) :=
  [a.compileTypes, a.compileCallables, a.compileStages,
   a.compilePipelineDecs, a.compilePipelineArgs, a.compileCall]

theorem compile_eq_firstErr (a : AstPasses) :
    Ast.compile a = firstErr (passList a) := by
  obtain ⟨p0, p1, p2, p3, p4, p5⟩ := a
  cases p0 <;> cases p1 <;> cases p2 <;> cases p3 <;> cases p4 <;> cases p5 <;> rfl

theorem firstErr_eq_none_iff (l : List (Option SemErr)) :
    firstErr l = none ↔ ∀ p ∈ l, p = none := by
  induction l with
  | nil => simp [firstErr]
  | cons x rest ih =>
    cases x with
    | none => simp [firstErr, ih]
    | some e => simp [firstErr]

theorem firstErr_of_first_some (l : List (Option SemErr)) (i : ℕ) (e : SemErr)
    (hbefore : ∀ j, j < i → l.getD j none = none)
    (hi : l.getD i none = some e) :
    firstErr l = some e := by
  induction l generalizing i with
  | nil => simp at hi
  | cons x rest ih =>
    cases i with
    | zero =>
      simp only [List.getD_cons_zero] at hi
      subst hi
      rfl
    | succ n =>
      have hx : x = none := by simpa using hbefore 0 (Nat.succ_pos n)
      subst hx
      simp only [firstErr]
      exact ih n (fun j hj => by simpa using hbefore (j + 1) (Nat.succ_lt_succ hj))
        (by simpa using hi)

end Martian

namespace Martian

/-- C1: For every pipestance, `GetState` returns the aggregate prescribed by
the spec's rules: Failed if any frontier node's state is Failed; otherwise
Running if any frontier node's state is Running; otherwise DisabledState if
every node's state is DisabledState; otherwise Complete if every node's
state is Complete or DisabledState; otherwise ForkWaiting. -/
theorem c1_getState_matches_spec (frontier allN : List MetadataState) :
    GetState frontier allN = specAggregateState frontier allN := by
  by_cases h1 : ∃ s ∈ frontier, s = MetadataState.Failed <;>
  by_cases h2 : ∃ s ∈ frontier, s = MetadataState.Running <;>
  by_cases h3 : ∀ s ∈ allN, s = MetadataState.DisabledState <;>
  by_cases h4 : ∀ s ∈ allN,
      s = MetadataState.Complete ∨ s = MetadataState.DisabledState <;>
  simp [GetState, specAggregateState, List.any_eq_true, List.all_eq_true,
    h1, h2, h3, h4]

/-- C2: `compile` runs the six semantic passes in the fixed order types,
callables, stages, pipeline declarations, pipeline arguments, top-level
call; it stops at the first pass that errors (its result is that first
error, independent of the results of later passes), and it returns `none`
exactly when every pass succeeds. -/
theorem c2_compile_six_passes (a : AstPasses) :
    (Ast.compile a = none ↔ ∀ p ∈ passList a, p = none) ∧
    (∀ i : ℕ, ∀ e : SemErr,
      (∀ j, j < i → (passList a).getD j none = none) →
      (passList a).getD i none = some e →
      Ast.compile a = some e) := by
  constructor
  · rw [compile_eq_firstErr]
    exact firstErr_eq_none_iff (passList a)
  · intro i e hbefore hi
    rw [compile_eq_firstErr]
    exact firstErr_of_first_some (passList a) i e hbefore hi

/-- Witness for C2: a pass vector whose third pass (stages) fails compiles
to exactly that error, discharging the hypotheses at a concrete input. -/
theorem c2_compile_six_passes_witness :
    Ast.compile ⟨none, none, some ⟨"dup stage"⟩, none, none, none⟩ =
      some ⟨"dup stage"⟩ :=
  (c2_compile_six_passes ⟨none, none, some ⟨"dup stage"⟩, none, none, none⟩).2
    2 ⟨"dup stage"⟩
    (by intro j hj; interval_cases j <;> rfl)
    rfl

end Martian

namespace Martian

/-- Reference-expression kinds (`syntax.KindCall`, `syntax.KindSelf`). -/
inductive ExpKind where
  | KindCall
  | KindSelf
  deriving DecidableEq, Repr

/-- `syntax.RefExp`: a reference to another call's output (kind = call,
call id + output id) or to a pipeline input (kind = self). -/
structure RefExp where
  kind : ExpKind
  id : String
  outputId : String
  deriving DecidableEq, Repr

/-- `syntax.Exp`: a literal value or a reference expression.  Literal
payloads are opaque here; the claims only inspect references. -/
inductive Exp where
  | val (v : String)
  | ref (r : RefExp)
  deriving DecidableEq, Repr

/-- An output parameter (`syntax.OutParam`): id and declared type name. -/
structure OutParam where
  id : String
  tname : String
  deriving DecidableEq, Repr

/-- `syntax.OutParams`: the ordered list of output parameters. -/
structure OutParams where
  list : List OutParam
  deriving DecidableEq, Repr

/-- `syntax.BindStm`: one binding of a parameter id to an expression. -/
structure BindStm where
  id : String
  tname : String
  exp : Exp
  deriving DecidableEq, Repr

/-- `syntax.BindStms`: ordered binding list plus a table keyed by id, the
table modelled as an association list built in insertion order. -/
structure BindStms where
  list : List BindStm
  table : List (String × BindStm)
  deriving DecidableEq, Repr

/-- `syntax.CallStm`: a call statement naming the callee (`DecId`) under an
instance id (`Id`), with its argument bindings. -/
structure CallStm where
  id : String
  decId : String
  bindings : BindStms
  deriving DecidableEq, Repr

/-- `syntax.Stage`, restricted to the fields the binder claims read:
declaration id and output parameters. -/
structure Stage where
  id : String
  outParams : OutParams
  deriving DecidableEq, Repr

/-- `syntax.ReturnStm`: a pipeline's return bindings. -/
structure ReturnStm where
  bindings : BindStms
  deriving DecidableEq, Repr

/-- `syntax.Pipeline`, restricted to the fields the binder claims read:
the ordered call list and the return statement. -/
structure Pipeline where
  calls : List CallStm
  ret : ReturnStm
  deriving DecidableEq, Repr

/-- `syntax.Callable`: a stage or a pipeline declaration. -/
inductive Callable where
  | stage (s : Stage)
  | pipeline (p : Pipeline)
  deriving DecidableEq, Repr

/-- The binding the `wrapStageAsPipeline` loop body constructs for one
output parameter: id and type copied from the parameter, expression a
call-kind reference naming the stage's id and the output's id. -/
def wrapBinding (stageId : String) (param : OutParam) : BindStm :=
  { id := param.id
    tname := param.tname
    exp := Exp.ref { kind := ExpKind.KindCall
                     id := stageId
                     outputId := param.id } }

/-- `core.wrapStageAsPipeline`: build a synthetic pipeline whose sole call
is the given call, with one return binding per stage output parameter.
The Go loop appends each binding to `returns.List` and inserts it into
`returns.Table` under the parameter's id. -/
def wrapStageAsPipeline (call : CallStm) (stage : Stage) : Pipeline :=
  let returns := stage.outParams.list.foldl
    (fun (acc : BindStms) param =>
      { list := acc.list ++ [wrapBinding stage.id param]
        table := acc.table ++ [(param.id, wrapBinding stage.id param)] })
    { list := [], table := [] }
  { calls := [call]
    ret := { bindings := returns } }

/-- The dispatch at the start of `core.NewPipestance`: look up the callee
in the callables table; a pipeline is used as-is, a stage is wrapped via
`wrapStageAsPipeline`, anything else is a runtime error (`none`). -/
def pipelineForCall (table : String → Option Callable) (call : CallStm) :
    Option Pipeline :=
  match table call.decId with
  | none => none
  | some (Callable.pipeline p) => some p
  | some (Callable.stage s) => some (wrapStageAsPipeline call s)

theorem wrapStage_foldl_spec (stageId : String) (params : List OutParam)
    (acc : BindStms) :
    params.foldl
      (fun (acc : BindStms) param =>
        { list := acc.list ++ [wrapBinding stageId param]
          table := acc.table ++ [(param.id, wrapBinding stageId param)] })
      acc =
    { list := acc.list ++ params.map (wrapBinding stageId)
      table := acc.table ++ params.map (fun p => (p.id, wrapBinding stageId p)) } := by
  induction params generalizing acc with
  | nil => simp
  | cons p rest ih => simp [ih]

end Martian

namespace Martian

/-- C5: For every top-level call whose callee is a declared stage,
pipestance construction wraps it in a synthetic pipeline whose call list
is exactly that one call, and whose return bindings contain one binding
per stage output parameter (in order), each with the parameter's id and a
reference expression of kind call naming the stage's id and that output's
id. -/
theorem c5_wrap_stage_as_pipeline (table : String → Option Callable)
    (call : CallStm) (s : Stage)
    (h : table call.decId = some (Callable.stage s)) :
    pipelineForCall table call = some (wrapStageAsPipeline call s) ∧
    (wrapStageAsPipeline call s).calls = [call] ∧
    (wrapStageAsPipeline call s).ret.bindings.list =
      s.outParams.list.map (wrapBinding s.id) ∧
    (wrapStageAsPipeline call s).ret.bindings.table =
      s.outParams.list.map (fun p => (p.id, wrapBinding s.id p)) ∧
    ∀ p ∈ s.outParams.list,
      (wrapBinding s.id p).id = p.id ∧
      (wrapBinding s.id p).exp =
        Exp.ref { kind := ExpKind.KindCall, id := s.id, outputId := p.id } := by
  refine ⟨?_, rfl, ?_, ?_, ?_⟩
  · simp [pipelineForCall, h]
  · simp [wrapStageAsPipeline, wrapStage_foldl_spec]
  · simp [wrapStageAsPipeline, wrapStage_foldl_spec]
  · intro p _
    exact ⟨rfl, rfl⟩

/-- Witness for C5: a concrete stage with two outputs wrapped into a
synthetic pipeline; the theorem applied at that input. -/
theorem c5_wrap_stage_as_pipeline_witness :
    pipelineForCall
      (fun n => if n = "CNT" then
          some (Callable.stage
            { id := "CNT", outParams := { list :=
                [{ id := "summary", tname := "json" },
                 { id := "counts", tname := "int" }] } })
        else none)
      { id := "CNT", decId := "CNT", bindings := { list := [], table := [] } } =
      some (wrapStageAsPipeline
        { id := "CNT", decId := "CNT", bindings := { list := [], table := [] } }
        { id := "CNT", outParams := { list :=
            [{ id := "summary", tname := "json" },
             { id := "counts", tname := "int" }] } }) :=
  (c5_wrap_stage_as_pipeline
    (fun n => if n = "CNT" then
        some (Callable.stage
          { id := "CNT", outParams := { list :=
              [{ id := "summary", tname := "json" },
               { id := "counts", tname := "int" }] } })
      else none)
    { id := "CNT", decId := "CNT", bindings := { list := [], table := [] } }
    { id := "CNT", outParams := { list :=
        [{ id := "summary", tname := "json" },
         { id := "counts", tname := "int" }] } }
    (by simp)).1

end Martian

namespace Martian

/-- The fixed vocabulary of well-known metadata file names used by the
pipestance-level claims (`core.MetadataFileName` constants). -/
inductive MetadataFileName where
  | Perf
  | FinalState
  | MetadataZip
  | Lock
  | JobId
  | JobModeFile
  | TimestampFile
  | UiPort
  | UuidFile
  | Errors
  deriving DecidableEq, Repr

/-- `Metadata.exists`: whether a metadata file is present in the
pipestance's top-level metadata directory, modelled as a list of names. -/
def mdExists (files : List MetadataFileName) (n : MetadataFileName) : Bool :=
  files.contains n

/-- `Metadata.Write` / `Metadata.WriteTime`: create the file (content is
irrelevant to the claims; only existence is tracked). -/
def mdWrite (files : List MetadataFileName) (n : MetadataFileName) :
    List MetadataFileName :=
  n :: files

/-- `Pipestance.readOnly`: true exactly when the Lock metadata file does
not exist. -/
def Pipestance.readOnly (files : List MetadataFileName) : Bool :=
  !(mdExists files MetadataFileName.Lock)

/-- Pipestance state for the immortalize claims: the metadata files present
plus the `rt.Config.Zip` configuration flag. -/
structure ImmState where
  files : List MetadataFileName
  zipConfig : Bool
  deriving DecidableEq, Repr

/-- One `if !exists then Write` step of `Pipestance.Immortalize`, threading
the write log. -/
def writeIfMissing (n : MetadataFileName)
    (s : ImmState × List MetadataFileName) : ImmState × List MetadataFileName :=
  if mdExists s.1.files n then s
  else ({ s.1 with files := mdWrite s.1.files n }, s.2 ++ [n])

/-- The MetadataZip step of `Pipestance.Immortalize`: when the zip file is
missing, `ZipMetadata` is called; it returns immediately (writing nothing)
when `Config.Zip` is false, and otherwise creates the zip file at the
MetadataZip metadata path (`util.CreateZip`, modelled as succeeding). -/
def zipStep (s : ImmState × List MetadataFileName) :
    ImmState × List MetadataFileName :=
  if mdExists s.1.files MetadataFileName.MetadataZip then s
  else if s.1.zipConfig then
    ({ s.1 with files := mdWrite s.1.files MetadataFileName.MetadataZip },
      s.2 ++ [MetadataFileName.MetadataZip])
  else s

/-- `Pipestance.Immortalize`: refuse in read-only mode unless forced, then
write each of Perf, FinalState and the metadata zip if (and only if) its
file does not already exist.  Returns the new state, the artifacts written
by this call, and whether the call succeeded. -/
def Immortalize (force : Bool) (s : ImmState) :
    ImmState × List MetadataFileName × Bool :=
  if !force && Pipestance.readOnly s.files then (s, [], false)
  else
    let t := zipStep (writeIfMissing MetadataFileName.FinalState
      (writeIfMissing MetadataFileName.Perf (s, [])))
    (t.1, t.2, true)

/-- `Pipestance.Lock`: if the Lock metadata file already exists, return the
`PipestanceLockedError` (here `false`); otherwise write the Lock timestamp
file and return nil (here `true`). -/
def Pipestance.Lock (files : List MetadataFileName) :
    List MetadataFileName × Bool :=
  if mdExists files MetadataFileName.Lock then (files, false)
  else (mdWrite files MetadataFileName.Lock, true)

end Martian

namespace Martian

/-- C6: Immortalize is idempotent over its artifacts: across two successive
calls, each of Perf, FinalState and MetadataZip is written at most once in
total, and the second call writes no artifact whose metadata file already
exists after the first call. -/
theorem c6_immortalize_idempotent (force : Bool) (s : ImmState) :
    ((Immortalize force s).2.1 ++
        (Immortalize force (Immortalize force s).1).2.1).count
        MetadataFileName.Perf ≤ 1 ∧
    ((Immortalize force s).2.1 ++
        (Immortalize force (Immortalize force s).1).2.1).count
        MetadataFileName.FinalState ≤ 1 ∧
    ((Immortalize force s).2.1 ++
        (Immortalize force (Immortalize force s).1).2.1).count
        MetadataFileName.MetadataZip ≤ 1 ∧
    ∀ a : MetadataFileName,
      mdExists (Immortalize force s).1.files a = true →
      a ∉ (Immortalize force (Immortalize force s).1).2.1 := by
  rcases s with ⟨files, zc⟩
  by_cases hL : files.contains MetadataFileName.Lock <;>
  by_cases hP : files.contains MetadataFileName.Perf <;>
  by_cases hF : files.contains MetadataFileName.FinalState <;>
  by_cases hZ : files.contains MetadataFileName.MetadataZip <;>
  cases force <;> cases zc <;>
  simp_all [Immortalize, writeIfMissing, zipStep, Pipestance.readOnly,
    mdExists, mdWrite, List.contains_cons]

/-- Witness for C6: the theorem applied at a concrete unlocked state,
whose Lock file exists, discharging the hypothesis of the final
conjunct at the Perf artifact. -/
theorem c6_immortalize_idempotent_witness :
    MetadataFileName.Perf ∉
      (Immortalize false
        ((Immortalize false
          { files := [MetadataFileName.Lock], zipConfig := true }).1)).2.1 :=
  (c6_immortalize_idempotent false
      { files := [MetadataFileName.Lock], zipConfig := true }).2.2.2
    MetadataFileName.Perf (by decide)

/-- C7: of two successive attempts to lock an unlocked pipestance
directory, exactly the first succeeds (writing the Lock timestamp file)
and the second observes the PipestanceLockedError; in general Lock
returns the locked error if and only if the Lock metadata file already
exists. -/
theorem c7_lock_exclusion (files : List MetadataFileName) :
    ((Pipestance.Lock files).2 = false ↔
      mdExists files MetadataFileName.Lock = true) ∧
    (mdExists files MetadataFileName.Lock = false →
      (Pipestance.Lock files).2 = true ∧
      (Pipestance.Lock (Pipestance.Lock files).1).2 = false) := by
  constructor
  · unfold Pipestance.Lock
    split
    · simp_all
    · simp_all
  · intro h
    have h2 : MetadataFileName.Lock ∉ files := by simpa [mdExists] using h
    unfold Pipestance.Lock
    simp [h2, mdExists, mdWrite, List.contains_cons]

/-- Witness for C7: on an empty metadata directory the first lock attempt
succeeds and the second fails. -/
theorem c7_lock_exclusion_witness :
    (Pipestance.Lock ([] : List MetadataFileName)).2 = true ∧
    (Pipestance.Lock (Pipestance.Lock ([] : List MetadataFileName)).1).2 =
      false :=
  (c7_lock_exclusion []).2 (by decide)

end Martian

namespace Martian

/-- A frontier node as seen by `OnFinishHook`: its state and the error
file paths its `getFatalError` reports. -/
structure HookNode where
  state : MetadataState
  errPaths : List String
  deriving DecidableEq, Repr

/-- The pipestance attributes `OnFinishHook` reads: `GetPath()`, the node
name (pipestance id), the frontier nodes and the states of all nodes. -/
structure HookPipestance where
  path : String
  name : String
  frontier : List HookNode
  allStates : List MetadataState
  deriving DecidableEq, Repr

/-- `Pipestance.GetState` on the hook model's node lists. -/
def hookGetState (ps : HookPipestance) : MetadataState :=
  GetState (ps.frontier.map (fun n => n.state)) ps.allStates

/-- `Pipestance.GetFatalError`, restricted to the error paths it returns:
those of the first Failed frontier node, or `[]` when none is Failed. -/
def GetFatalErrorPaths (frontier : List HookNode) : List String :=
  match frontier.find? (fun n => n.state == MetadataState.Failed) with
  | some n => n.errPaths
  | none => []

/-- `Pipestance.OnFinishHook`: when an onfinish handler is configured,
build the handler's positional arguments — pipestance path, terminal state
string, pipestance id, and, only in the Failed state with a nonempty error
path list, the relative path of the first error file.  `stateStr` is the
Go string value of a state, `dir` is `filepath.Dir` and `rel` is
`filepath.Rel`, external collaborators kept abstract.  Returns `none` when
no handler is configured (the hook body is skipped entirely). -/
def OnFinishHook (handler : String) (stateStr : MetadataState → String)
    (dir : String → String) (rel : String → String → String)
    (ps : HookPipestance) : Option (List String) :=
  if handler = "" then none
  else
    let args := [ps.path, stateStr (hookGetState ps), ps.name]
    let args :=
      if hookGetState ps = MetadataState.Failed then
        match GetFatalErrorPaths ps.frontier with
        | [] => args
        | p :: _ => args ++ [rel (dir ps.path) p]
      else args
    some args

/-- C8: whenever an onfinish handler is configured, `OnFinishHook` invokes
it with exactly the pipestance path, the terminal state string and the
pipestance id, in that order, plus — exactly when the pipestance state is
Failed and an error file exists — a relative path to the first error file
as a fourth argument. -/
theorem c8_onfinish_hook_args (handler : String)
    (stateStr : MetadataState → String) (dir : String → String)
    (rel : String → String → String) (ps : HookPipestance)
    (h : handler ≠ "") :
    (∀ p rest, hookGetState ps = MetadataState.Failed →
      GetFatalErrorPaths ps.frontier = p :: rest →
      OnFinishHook handler stateStr dir rel ps =
        some [ps.path, stateStr (hookGetState ps), ps.name,
          rel (dir ps.path) p]) ∧
    (hookGetState ps ≠ MetadataState.Failed →
      OnFinishHook handler stateStr dir rel ps =
        some [ps.path, stateStr (hookGetState ps), ps.name]) ∧
    (GetFatalErrorPaths ps.frontier = [] →
      OnFinishHook handler stateStr dir rel ps =
        some [ps.path, stateStr (hookGetState ps), ps.name]) := by
  refine ⟨?_, ?_, ?_⟩
  · intro p rest hf hp
    simp [OnFinishHook, h, hf, hp]
  · intro hf
    simp [OnFinishHook, h, hf]
  · intro hp
    by_cases hf : hookGetState ps = MetadataState.Failed <;>
      simp [OnFinishHook, h, hf, hp]

/-- Witness for C8: a concrete failed pipestance with one error file; the
handler receives the relative error path as fourth argument. -/
theorem c8_onfinish_hook_args_witness :
    OnFinishHook "finish.sh" (fun _ => "failed") (fun p => p)
      (fun _ b => b)
      { path := "/ps", name := "ID1",
        frontier := [{ state := MetadataState.Failed,
                       errPaths := ["/ps/x/errors"] }],
        allStates := [MetadataState.Failed] } =
      some ["/ps", "failed", "ID1", "/ps/x/errors"] :=
  (c8_onfinish_hook_args "finish.sh" (fun _ => "failed") (fun p => p)
      (fun _ b => b)
      { path := "/ps", name := "ID1",
        frontier := [{ state := MetadataState.Failed,
                       errPaths := ["/ps/x/errors"] }],
        allStates := [MetadataState.Failed] }
      (by decide)).1 "/ps/x/errors" [] (by decide) (by decide)

end Martian

namespace Martian

/-- A runtime node as the queue-probe task sees the world: its name and its
in-memory `state` field (plus nothing else it may touch). -/
structure NodeRt where
  fqname : String
  state : MetadataState
  deriving DecidableEq, Repr

/-- `Metadata.failNotRunning`: write a "not running" failure marker for the
given job id into the metadata directory identified by `mpath`.  The store
is the list of (metadata path, file content) writes, newest first. -/
def failNotRunning (store : List (String × String)) (mpath jobid : String) :
    List (String × String) :=
  (mpath, "not running job " ++ jobid) :: store

/-- The pipestance state touched by the asynchronous queue-probe task:
the node records, the metadata store, and the probe bookkeeping fields
guarded by `queueCheckLock`. -/
structure QueryPipestance where
  nodes : List NodeRt
  store : List (String × String)
  queueCheckActive : Bool
  lastQueueCheck : Nat
  deriving DecidableEq, Repr

/-- The body of the goroutine launched by `Pipestance.queryQueue`:
`checkQueue` returns the ids still `queued`; every job of `needsQuery`
(job id paired with its metadata path) not among them gets a "not running"
marker written into its metadata — unless the pipestance is read-only —
and the bookkeeping is updated (probe no longer active, last check time
set to now). -/
def queryQueueTask (needsQuery : List (String × String))
    (queued : List String) (readOnly : Bool) (now : Nat)
    (ps : QueryPipestance) : QueryPipestance :=
  let remaining := needsQuery.filter (fun q => !(queued.contains q.1))
  let store1 :=
    if readOnly then ps.store
    else remaining.foldl (fun st q => failNotRunning st q.2 q.1) ps.store
  { ps with
    store := store1
    queueCheckActive := false
    lastQueueCheck := now }

theorem foldl_failNotRunning (l : List (String × String))
    (st : List (String × String)) :
    l.foldl (fun st q => failNotRunning st q.2 q.1) st =
      (l.map (fun q => (q.2, "not running job " ++ q.1))).reverse ++ st := by
  induction l generalizing st with
  | nil => simp
  | cons q rest ih =>
    simp only [List.foldl_cons, List.map_cons, List.reverse_cons, ih]
    simp [failNotRunning]

/-- C9: the asynchronous queue-probe task never mutates any node's state
field or any other node attribute — the node list is returned unchanged —
and its only effects are prepending one "not running" marker per job
missing from the queue (none at all in read-only mode) and updating the
probe bookkeeping. -/
theorem c9_query_task_frame (needsQuery : List (String × String))
    (queued : List String) (readOnly : Bool) (now : Nat)
    (ps : QueryPipestance) :
    (queryQueueTask needsQuery queued readOnly now ps).nodes = ps.nodes ∧
    (queryQueueTask needsQuery queued readOnly now ps).store =
      (if readOnly then ps.store
       else ((needsQuery.filter (fun q => !(queued.contains q.1))).map
          (fun q => (q.2, "not running job " ++ q.1))).reverse ++ ps.store) ∧
    (queryQueueTask needsQuery queued readOnly now ps).queueCheckActive =
      false ∧
    (queryQueueTask needsQuery queued readOnly now ps).lastQueueCheck = now := by
  refine ⟨rfl, ?_, rfl, rfl⟩
  by_cases h : readOnly <;>
    simp [queryQueueTask, h, foldl_failNotRunning]

end Martian

namespace Martian

/-- A runtime node for the mutating-operation claims: name, state, and
whether it is in the frontier node map. -/
structure StepNode where
  fqname : String
  state : MetadataState
  frontier : Bool
  deriving DecidableEq, Repr

/-- The pipestance state read by `StepNodes` / `KillWithMessage` / `Reset`:
the top-level metadata files (for the Lock check), the nodes, and the
result of the `CheckMinimalSpace` disk check. -/
structure RtPipestance where
  files : List MetadataFileName
  nodes : List StepNode
  diskOK : Bool
  deriving DecidableEq, Repr

/-- `Pipestance.KillWithMessage`: in read-only mode return immediately;
otherwise kill every frontier node (`killNode` abstracts `node.kill`). -/
def KillWithMessage (killNode : StepNode → StepNode) (ps : RtPipestance) :
    RtPipestance :=
  if Pipestance.readOnly ps.files then ps
  else
    { ps with
      nodes := ps.nodes.map (fun n => if n.frontier then killNode n else n) }

/-- `Pipestance.StepNodes`: in read-only mode return false immediately;
on a disk-space error kill the pipestance and return false; otherwise
step every frontier node (`stepNode` abstracts `node.step`, returning the
advanced node and its progress flag), OR the progress flags, and clear
every node's metadata read cache (`clearCache`). -/
def StepNodes (stepNode : StepNode → StepNode × Bool)
    (killNode clearCache : StepNode → StepNode) (ps : RtPipestance) :
    RtPipestance × Bool :=
  if Pipestance.readOnly ps.files then (ps, false)
  else if !ps.diskOK then (KillWithMessage killNode ps, false)
  else
    let nodes1 := ps.nodes.map (fun n => if n.frontier then (stepNode n).1 else n)
    let had := (ps.nodes.filter (fun n => n.frontier)).any
      (fun n => (stepNode n).2)
    ({ ps with nodes := nodes1.map clearCache }, had)

/-- `node.reset` applied to every Failed node of the list, stopping at the
first node whose reset errors (`resetNode` abstracts `node.reset`). -/
def resetFailedNodes (resetNode : StepNode → Except String StepNode) :
    List StepNode → Except String (List StepNode)
  | [] => Except.ok []
  | n :: rest =>
    if n.state == MetadataState.Failed then
      match resetNode n with
      | Except.error e => Except.error e
      | Except.ok n2 => (resetFailedNodes resetNode rest).map (fun ns => n2 :: ns)
    else (resetFailedNodes resetNode rest).map (fun ns => n :: ns)

/-- `Pipestance.Reset`: in read-only mode return a RuntimeError; otherwise
reset every Failed node, propagating the first reset error. -/
def Pipestance.Reset (resetNode : StepNode → Except String StepNode)
    (ps : RtPipestance) : Except String RtPipestance :=
  if Pipestance.readOnly ps.files then
    Except.error "Pipestance is in read only mode."
  else (resetFailedNodes resetNode ps.nodes).map
    (fun ns => { ps with nodes := ns })

/-- C10: when the Lock metadata file does not exist (read-only mode), the
mutating operations are inert: `StepNodes` returns false without stepping
any node, `KillWithMessage` returns without killing any node, and `Reset`
returns a RuntimeError without resetting any node; in each case the state
is returned unchanged. -/
theorem c10_read_only_inert (ps : RtPipestance)
    (stepNode : StepNode → StepNode × Bool)
    (killNode clearCache : StepNode → StepNode)
    (resetNode : StepNode → Except String StepNode)
    (h : mdExists ps.files MetadataFileName.Lock = false) :
    StepNodes stepNode killNode clearCache ps = (ps, false) ∧
    KillWithMessage killNode ps = ps ∧
    Pipestance.Reset resetNode ps =
      Except.error "Pipestance is in read only mode." := by
  have hro : Pipestance.readOnly ps.files = true := by
    simp [Pipestance.readOnly, h]
  refine ⟨?_, ?_, ?_⟩
  · simp [StepNodes, hro]
  · simp [KillWithMessage, hro]
  · simp [Pipestance.Reset, hro]

/-- Witness for C10: a pipestance with no Lock file, one Failed frontier
node and abstract node operations instantiated concretely; all three
operations are inert. -/
theorem c10_read_only_inert_witness :
    StepNodes (fun n => (n, true)) id id
      { files := [],
        nodes := [{ fqname := "ID.x", state := MetadataState.Failed,
                    frontier := true }],
        diskOK := true } =
      ({ files := [],
         nodes := [{ fqname := "ID.x", state := MetadataState.Failed,
                     frontier := true }],
         diskOK := true },
        false) :=
  (c10_read_only_inert
    { files := [],
      nodes := [{ fqname := "ID.x", state := MetadataState.Failed,
                  frontier := true }],
      diskOK := true }
    (fun n => (n, true)) id id (fun n => Except.ok n) (by decide)).1

end Martian

namespace Martian

/-- `QUEUE_CHECK_LIMIT` from `Pipestance.queryQueue`: five minutes, in
seconds. -/
def QUEUE_CHECK_LIMIT : Nat := 300

/-- `time.Since(self.lastQueueCheck) < QUEUE_CHECK_LIMIT`.  A `none`
last-check models Go's zero `time.Time` (no probe has completed yet),
which lies further in the past than any limit, so the guard is false. -/
def rateLimited (now : Nat) (last : Option Nat) : Bool :=
  match last with
  | none => false
  | some l => now - l < QUEUE_CHECK_LIMIT

/-- The state relevant to `Pipestance.queryQueue`: the two fields guarded
by `queueCheckLock`, plus ghost instrumentation — the number of launched
but unfinished probe goroutines, the times at which `checkQueue` was
invoked, and the time of the last event (to keep schedules monotone). -/
structure QProbeState where
  queueCheckActive : Bool
  lastQueueCheck : Option Nat
  inFlight : Nat
  startTimes : List Nat
  prev : Nat
  deriving DecidableEq, Repr

/-- An event of a schedule: a call to `queryQueue` at time `t` (with the
job manager's `hasQueueCheck()` answer and whether the `needsQuery` set
turns out empty), or the completion of the probe goroutine at time `t`. -/
inductive QEvent where
  | query (t : Nat) (hasCheck : Bool) (needsEmpty : Bool)
  | finish (t : Nat)
  deriving DecidableEq, Repr

/-- The initial probe state: not active, no completed probe. -/
def qInit : QProbeState :=
  { queueCheckActive := false
    lastQueueCheck := none
    inFlight := 0
    startTimes := []
    prev := 0 }

/-- One event of `Pipestance.queryQueue`'s concurrency protocol.  A
`query` call returns without querying when the backend has no queue
check, when a probe is active or rate-limited (the mutex-guarded early
return), or when nothing needs querying (active is set and immediately
reset); otherwise it marks the probe active and launches the goroutine
that invokes `checkQueue`.  A `finish` completes the goroutine: it resets
the active flag and stamps `lastQueueCheck`.  `none` marks schedules that
cannot happen (time running backwards, or a completion with no probe in
flight). -/
def qStep (s : QProbeState) : QEvent → Option QProbeState
  | QEvent.query t hasCheck needsEmpty =>
    if t < s.prev then none
    else if !hasCheck then some { s with prev := t }
    else if s.queueCheckActive || rateLimited t s.lastQueueCheck then
      some { s with prev := t }
    else if needsEmpty then some { s with prev := t }
    else
      some { s with
        queueCheckActive := true
        inFlight := s.inFlight + 1
        startTimes := s.startTimes ++ [t]
        prev := t }
  | QEvent.finish t =>
    if t < s.prev then none
    else if s.inFlight = 0 then none
    else
      some { s with
        queueCheckActive := false
        lastQueueCheck := some t
        inFlight := s.inFlight - 1
        prev := t }

/-- Run a schedule of events from a state. -/
def qRun (s : QProbeState) : List QEvent → Option QProbeState
  | [] => some s
  | e :: es =>
    match qStep s e with
    | none => none
    | some s1 => qRun s1 es

/-- The inductive invariant of the queue-probe protocol. -/
def QInv (s : QProbeState) : Prop :=
  s.inFlight ≤ 1 ∧
  (s.queueCheckActive = true ↔ s.inFlight = 1) ∧
  List.Chain' (fun a b => a + QUEUE_CHECK_LIMIT ≤ b) s.startTimes ∧
  (s.queueCheckActive = true →
    ∃ t0, s.startTimes.getLast? = some t0 ∧ t0 ≤ s.prev) ∧
  (s.queueCheckActive = false →
    ∀ t0, s.startTimes.getLast? = some t0 →
      ∃ l, s.lastQueueCheck = some l ∧ t0 ≤ l)

theorem qInit_inv : QInv qInit := by
  refine ⟨by simp [qInit], by simp [qInit], by simp [qInit], ?_, ?_⟩
  · intro h
    simp [qInit] at h
  · intro _ t0 h
    simp [qInit] at h

theorem qInv_prev_advance (s : QProbeState) (t : Nat) (hinv : QInv s)
    (ht : ¬ t < s.prev) : QInv { s with prev := t } := by
  obtain ⟨h1, h2, h3, h4, h5⟩ := hinv
  refine ⟨h1, h2, h3, ?_, h5⟩
  intro ha
  obtain ⟨t0, hl, hle⟩ := h4 ha
  exact ⟨t0, hl, le_trans hle (le_of_not_lt ht)⟩

theorem qStep_inv (s s1 : QProbeState) (e : QEvent) (hinv : QInv s)
    (hstep : qStep s e = some s1) : QInv s1 := by
  obtain ⟨h1, h2, h3, h4, h5⟩ := hinv
  cases e with
  | query t hasCheck needsEmpty =>
    simp only [qStep] at hstep
    split_ifs at hstep with ht hc0 hor hne
    all_goals (injection hstep with hstep)
    all_goals (subst hstep)
    all_goals (try exact qInv_prev_advance s t ⟨h1, h2, h3, h4, h5⟩ ht)
    -- remaining: the branch where the probe actually starts
    have hor2 := hor
    simp only [Bool.or_eq_true, not_or, Bool.not_eq_true] at hor2
    obtain ⟨hna, hnr⟩ := hor2
    have hfl : s.inFlight = 0 := by
      have hne1 : s.inFlight ≠ 1 := fun hcon => by
        have := h2.mpr hcon
        rw [hna] at this
        exact Bool.false_ne_true this
      omega
    refine ⟨by simp [hfl], by simp [hfl], ?_, ?_, ?_⟩
    · show List.Chain' (fun a b => a + QUEUE_CHECK_LIMIT ≤ b)
        (s.startTimes ++ [t])
      rw [List.chain'_append]
      refine ⟨h3, List.chain'_singleton _, ?_⟩
      intro x hx y hy
      simp only [List.head?_cons, Option.mem_def, Option.some.injEq] at hy
      subst hy
      obtain ⟨l, hleq, hxl⟩ := h5 hna x hx
      have hge : ¬ (t - l < QUEUE_CHECK_LIMIT) := by
        intro hcon
        rw [show rateLimited t s.lastQueueCheck = (t - l <
          QUEUE_CHECK_LIMIT : Bool) from by simp [rateLimited, hleq]]
          at hnr
        simp [hcon] at hnr
      simp only [QUEUE_CHECK_LIMIT] at hge ⊢
      omega
    · intro _
      refine ⟨t, ?_, le_refl t⟩
      show (s.startTimes ++ [t]).getLast? = some t
      simp [List.getLast?_concat]
    · intro hcon
      simp at hcon
  | finish t =>
    simp only [qStep] at hstep
    split_ifs at hstep with ht hz
    injection hstep with hstep
    subst hstep
    have hone : s.inFlight = 1 := by omega
    have hact : s.queueCheckActive = true := h2.mpr hone
    refine ⟨by simp [hone], by simp [hone], h3, ?_, ?_⟩
    · intro hcon
      simp at hcon
    · intro _ t0 hl0
      obtain ⟨t1, hl1, hle1⟩ := h4 hact
      have hl0b : s.startTimes.getLast? = some t0 := hl0
      rw [hl1] at hl0b
      simp only [Option.some.injEq] at hl0b
      subst hl0b
      exact ⟨t, rfl, le_trans hle1 (le_of_not_lt ht)⟩

theorem qRun_inv (tr : List QEvent) (s s1 : QProbeState) (hinv : QInv s)
    (hrun : qRun s tr = some s1) : QInv s1 := by
  induction tr generalizing s with
  | nil =>
    simp [qRun] at hrun
    subst hrun
    exact hinv
  | cons e es ih =>
    simp only [qRun] at hrun
    cases hs : qStep s e with
    | none => rw [hs] at hrun; simp at hrun
    | some s2 =>
      rw [hs] at hrun
      exact ih s2 (qStep_inv s s2 e hinv hs) hrun

end Martian

namespace Martian

/-- C4: regardless of how often `queryQueue` is called, at most one queue
probe is in flight at any time and successive `checkQueue` invocations are
at least one five-minute window apart (over every realizable schedule of
calls and completions); moreover a call made while a probe is active or
within five minutes of the last completed probe performs no queue query
and leaves the probe state unchanged. -/
theorem c4_queue_check_rate_limit :
    (∀ (tr : List QEvent) (s1 : QProbeState), qRun qInit tr = some s1 →
      s1.inFlight ≤ 1 ∧
      List.Chain' (fun a b => a + QUEUE_CHECK_LIMIT ≤ b) s1.startTimes) ∧
    (∀ (s : QProbeState) (t : Nat) (hasCheck needsEmpty : Bool)
        (s2 : QProbeState),
      qStep s (QEvent.query t hasCheck needsEmpty) = some s2 →
      (s.queueCheckActive = true ∨ rateLimited t s.lastQueueCheck = true) →
      s2.startTimes = s.startTimes ∧ s2.inFlight = s.inFlight ∧
        s2.queueCheckActive = s.queueCheckActive ∧
        s2.lastQueueCheck = s.lastQueueCheck) := by
  constructor
  · intro tr s1 hrun
    have hinv := qRun_inv tr qInit s1 qInit_inv hrun
    exact ⟨hinv.1, hinv.2.2.1⟩
  · intro s t hasCheck needsEmpty s2 hstep hblock
    simp only [qStep] at hstep
    split_ifs at hstep with ht hc0 hor hne
    all_goals (injection hstep with hstep)
    all_goals (subst hstep)
    all_goals (try exact ⟨rfl, rfl, rfl, rfl⟩)
    exfalso
    rcases hblock with h | h
    · simp [h] at hor
    · simp [h] at hor

/-- Witness for C4: running the schedule query-at-0, finish-at-10,
query-at-15 (blocked: within the window) from the initial state leaves one
recorded probe start and nothing in flight beyond the bound. -/
theorem c4_queue_check_rate_limit_witness :
    ({ queueCheckActive := false, lastQueueCheck := some 10, inFlight := 0,
       startTimes := [0], prev := 15 } : QProbeState).inFlight ≤ 1 ∧
    List.Chain' (fun a b => a + QUEUE_CHECK_LIMIT ≤ b)
      ({ queueCheckActive := false, lastQueueCheck := some 10, inFlight := 0,
         startTimes := [0], prev := 15 } : QProbeState).startTimes :=
  c4_queue_check_rate_limit.1
    [QEvent.query 0 true false, QEvent.finish 10, QEvent.query 15 true false]
    { queueCheckActive := false, lastQueueCheck := some 10, inFlight := 0,
      startTimes := [0], prev := 15 }
    (by decide)

end Martian

namespace Martian

/-- File paths; `util.SearchPaths` and `filepath.Abs` are modelled as the
identity over a table of resolvable files, so include values stand for
their resolved absolute paths. -/
abbrev Path := String

/-- The kinds of error `getIncludes` can report for one include directive:
`FileNotFoundError`, the "included multiple times" duplicate error, the
"includes itself" error, and `checkIncludes`'s "Include cycle" error. -/
inductive IncErrKind where
  | fileNotFound
  | dupInclude
  | selfInclude
  | includeCycle
  deriving DecidableEq, Repr

/-- One include-resolution error: its kind, the included file it names, and
the file whose include directive it is attributed to (the error's source
location). -/
structure IncErr where
  kind : IncErrKind
  file : Path
  fromFile : Path
  deriving DecidableEq, Repr

/-- The `processedIncludes` map: each processed file's path paired with its
`IncludedFrom` list (the files whose include directives reached it). -/
abbrev Proc := List (Path × List Path)

/-- Lookup in `processedIncludes`. -/
def lookupProc : Proc → Path → Option (List Path)
  | [], _ => none
  | q :: rest, p => if q.1 = p then some q.2 else lookupProc rest p

/-- A processed file's `IncludedFrom` parents (empty when absent). -/
def parentsOf (proc : Proc) (p : Path) : List Path :=
  (lookupProc proc p).getD []

/-- `iSrcFile.IncludedFrom = append(iSrcFile.IncludedFrom, &inc.Node.Loc)`:
record one more include site for an already-processed file. -/
def addParent (proc : Proc) (p parent : Path) : Proc :=
  proc.map (fun q => if q.1 = p then (q.1, q.2 ++ [parent]) else q)

/-- The "included multiple times" duplicate error for path `p`, attributed
to `src`'s include directive. -/
def dupErr (p src : Path) : IncErr :=
  { kind := IncErrKind.dupInclude, file := p, fromFile := src }

/-- `SourceFile.checkIncludes`: walk the current file's ancestors through
the `IncludedFrom` edges; report an "Include cycle" error for every
ancestor path equal to the file being included.  Go recurses through the
parent pointers; the fuel bounds that recursion (with enough fuel the
results agree, and exhaustion only drops errors). -/
def checkIncludesM (proc : Proc) : Nat → Path → Path → Path → List IncErr
  | 0, _, _, _ => []
  | fuel + 1, srcPath, fullPath, fromF =>
    if fullPath = srcPath then
      [{ kind := IncErrKind.includeCycle, file := fullPath, fromFile := fromF }]
    else
      (parentsOf proc srcPath).flatMap
        (fun par => checkIncludesM proc fuel par fullPath fromF)

/-- `getIncludes` (with the recursion into `parseSource` inlined): process
the include list of `src` left to right, with the per-call `seen` set and
the global `processedIncludes` map.  An unresolvable include yields
fileNotFound; a path already in `seen` yields the duplicate error; a path
equal to the current file yields the self-include error; a path already
processed gains an `IncludedFrom` edge and is checked for cycles; a new
path is registered and its own includes are processed recursively with a
fresh `seen`.  Errors are accumulated in source order.  `fuel` bounds the
include-nesting depth. -/
def getIncludesM (fs : Path → Option (List Path)) :
    Nat → Path → List Path → List Path → Proc → List IncErr × Proc
  | _, _, [], _, proc => ([], proc)
  | 0, src, inc :: rest, seen, proc =>
    match fs inc with
    | none =>
      let r := getIncludesM fs 0 src rest seen proc
      ({ kind := IncErrKind.fileNotFound, file := inc, fromFile := src }
        :: r.1, r.2)
    | some _ =>
      let dup : List IncErr :=
        if inc ∈ seen then [dupErr inc src] else []
      let seen1 := inc :: seen
      if inc = src then
        let selfErr : IncErr :=
          { kind := IncErrKind.selfInclude, file := inc, fromFile := src }
        let r := getIncludesM fs 0 src rest seen1 proc
        (dup ++ selfErr :: r.1, r.2)
      else if (lookupProc proc inc).isSome then
        let proc1 := addParent proc inc src
        let ces := checkIncludesM proc1 0 src inc src
        let r := getIncludesM fs 0 src rest seen1 proc1
        (dup ++ ces ++ r.1, r.2)
      else
        -- out of nesting fuel: the new file is registered but not parsed
        let proc1 := proc ++ [(inc, [src])]
        let r2 := getIncludesM fs 0 src rest seen1 proc1
        (dup ++ r2.1, r2.2)
  | fuel1 + 1, src, inc :: rest, seen, proc =>
    match fs inc with
    | none =>
      let r := getIncludesM fs (fuel1 + 1) src rest seen proc
      ({ kind := IncErrKind.fileNotFound, file := inc, fromFile := src }
        :: r.1, r.2)
    | some incList =>
      let dup : List IncErr :=
        if inc ∈ seen then [dupErr inc src] else []
      let seen1 := inc :: seen
      if inc = src then
        let selfErr : IncErr :=
          { kind := IncErrKind.selfInclude, file := inc, fromFile := src }
        let r := getIncludesM fs (fuel1 + 1) src rest seen1 proc
        (dup ++ selfErr :: r.1, r.2)
      else if (lookupProc proc inc).isSome then
        let proc1 := addParent proc inc src
        let ces := checkIncludesM proc1 (fuel1 + 1) src inc src
        let r := getIncludesM fs (fuel1 + 1) src rest seen1 proc1
        (dup ++ ces ++ r.1, r.2)
      else
        let proc1 := proc ++ [(inc, [src])]
        let r1 := getIncludesM fs fuel1 inc incList [] proc1
        let r2 := getIncludesM fs (fuel1 + 1) src rest seen1 r1.2
        (dup ++ r1.1 ++ r2.1, r2.2)
  termination_by fuel _ l _ _ => (fuel, l.length)

/-- `ParseSourceBytes`'s include resolution: seed `processedIncludes` with
the root file (no parents) and process its include list. -/
def parseSourceIncludes (fs : Path → Option (List Path)) (fuel : Nat)
    (root : Path) : List IncErr × Proc :=
  getIncludesM fs fuel root ((fs root).getD []) [] [(root, [])]

end Martian

namespace Martian

theorem lookupProc_addParent (proc : Proc) (p par q : Path) (h : q ≠ p) :
    lookupProc (addParent proc p par) q = lookupProc proc q := by
  have hpq : ¬ p = q := fun hc => h hc.symm
  induction proc with
  | nil => rfl
  | cons e rest ih =>
    simp only [addParent, List.map_cons] at ih ⊢
    by_cases hep : e.1 = p
    · simp [lookupProc, hep, hpq, ih]
    · by_cases heq : e.1 = q
      · have hqp : ¬ q = p := heq ▸ hep
        simp [lookupProc, hep, heq, hqp, ih]
      · simp [lookupProc, hep, heq, ih]

theorem lookupProc_addParent_isSome (proc : Proc) (p par q : Path) :
    (lookupProc (addParent proc p par) q).isSome =
      (lookupProc proc q).isSome := by
  induction proc with
  | nil => rfl
  | cons e rest ih =>
    simp only [addParent, List.map_cons] at ih ⊢
    by_cases hep : e.1 = p
    · by_cases hq : p = q <;> simp [lookupProc, hep, hq, ih]
    · by_cases heq : e.1 = q
      · have hqp : ¬ q = p := heq ▸ hep
        simp [lookupProc, hep, heq, hqp, ih]
      · simp [lookupProc, hep, heq, ih]

theorem lookupProc_append_ne (proc : Proc) (p q : Path) (v : List Path)
    (h : q ≠ p) :
    lookupProc (proc ++ [(p, v)]) q = lookupProc proc q := by
  have hpq : ¬ p = q := fun hc => h hc.symm
  induction proc with
  | nil => simp [lookupProc, hpq]
  | cons e rest ih =>
    by_cases heq : e.1 = q <;> simp [lookupProc, heq, ih]

theorem lookupProc_append_self (proc : Proc) (p : Path) (v : List Path)
    (h : lookupProc proc p = none) :
    lookupProc (proc ++ [(p, v)]) p = some v := by
  induction proc with
  | nil => simp [lookupProc]
  | cons e rest ih =>
    by_cases heq : e.1 = p
    · simp [lookupProc, heq] at h
    · simp [lookupProc, heq] at h ⊢
      exact ih h

theorem parentsOf_addParent_ne (proc : Proc) (p par q : Path) (h : q ≠ p) :
    parentsOf (addParent proc p par) q = parentsOf proc q := by
  simp [parentsOf, lookupProc_addParent proc p par q h]

theorem checkIncludesM_of_no_parents (proc : Proc) (fuel : Nat)
    (src tgt frm : Path) (hsrc : parentsOf proc src = [])
    (hne : tgt ≠ src) :
    checkIncludesM proc fuel src tgt frm = [] := by
  cases fuel with
  | zero => rfl
  | succ f =>
    simp [checkIncludesM, hsrc, hne]

theorem checkIncludesM_kind (proc : Proc) :
    ∀ (fuel : Nat) (src tgt frm : Path),
      ∀ e ∈ checkIncludesM proc fuel src tgt frm,
        e.kind = IncErrKind.includeCycle := by
  intro fuel
  induction fuel with
  | zero => intro src tgt frm e he; simp [checkIncludesM] at he
  | succ f ih =>
    intro src tgt frm e he
    simp only [checkIncludesM] at he
    by_cases h : tgt = src
    · rw [if_pos h] at he
      simp at he
      subst he
      rfl
    · rw [if_neg h] at he
      simp only [List.mem_flatMap] at he
      obtain ⟨par, _, hmem⟩ := he
      exact ih par tgt frm e hmem

end Martian

namespace Martian

theorem count_dupErr_singleton (x p src : Path) (h : x ≠ p) :
    (([dupErr x src] : List IncErr)).count (dupErr p src) = 0 := by
  simp [dupErr, List.count_singleton, h]

end Martian

namespace Martian

end Martian

namespace Martian

theorem two_le_count_split (L pre rest : List Path) (x : Path)
    (hL : L = pre ++ x :: rest) (hx : x ∈ pre) : 2 ≤ L.count x := by
  subst hL
  rw [List.count_append, List.count_cons_self]
  have hpos : 0 < pre.count x := List.count_pos_iff.mpr hx
  omega

theorem getIncludesM_dup_sound (fs : Path → Option (List Path)) :
    ∀ (fuel : Nat) (l : List Path) (src : Path) (seen : List Path)
      (proc : Proc) (pre : List Path),
      (fs src).getD [] = pre ++ l →
      (∀ x ∈ seen, x ∈ pre) →
      ∀ e ∈ (getIncludesM fs fuel src l seen proc).1,
        e.kind = IncErrKind.dupInclude →
        2 ≤ ((fs e.fromFile).getD []).count e.file := by
  intro fuel
  induction fuel with
  | zero =>
    intro l
    induction l with
    | nil =>
      intro src seen proc pre _ _ e he
      simp [getIncludesM] at he
    | cons x rest ihl =>
      intro src seen proc pre hpre hseen e he hkind
      have hpre2 : (fs src).getD [] = (pre ++ [x]) ++ rest := by
        rw [hpre]
        simp
      have hseen2 : ∀ y ∈ x :: seen, y ∈ pre ++ [x] := by
        intro y hy
        rcases List.mem_cons.mp hy with rfl | hy2
        · simp
        · exact List.mem_append_left _ (hseen y hy2)
      have hdupmem :
          e ∈ (if x ∈ seen then [dupErr x src] else ([] : List IncErr)) →
          2 ≤ ((fs e.fromFile).getD []).count e.file := by
        intro hd
        by_cases hx : x ∈ seen
        · rw [if_pos hx] at hd
          simp only [List.mem_singleton] at hd
          subst hd
          simp only [dupErr]
          exact two_le_count_split _ pre rest x hpre (hseen x hx)
        · rw [if_neg hx] at hd
          simp at hd
      simp only [getIncludesM] at he
      cases hfx : fs x with
      | none =>
        simp only [hfx] at he
        simp only [List.mem_cons] at he
        rcases he with rfl | he
        · simp at hkind
        · exact ihl src seen proc (pre ++ [x]) hpre2
            (fun y hy => List.mem_append_left _ (hseen y hy)) e he hkind
      | some incList =>
        simp only [hfx] at he
        by_cases hxsrc : x = src
        · rw [if_pos hxsrc] at he
          simp only [List.mem_append, List.mem_cons] at he
          rcases he with he | he | he
          · exact hdupmem he
          · subst he
            simp at hkind
          · exact ihl src (x :: seen) proc (pre ++ [x]) hpre2 hseen2 e he hkind
        · rw [if_neg hxsrc] at he
          by_cases hsm : (lookupProc proc x).isSome = true
          · rw [if_pos hsm] at he
            simp only [List.mem_append] at he
            rcases he with (he | he) | he
            · exact hdupmem he
            · have hcy := checkIncludesM_kind (addParent proc x src) 0
                src x src e he
              rw [hcy] at hkind
              simp at hkind
            · exact ihl src (x :: seen) (addParent proc x src) (pre ++ [x])
                hpre2 hseen2 e he hkind
          · rw [if_neg hsm] at he
            simp only [List.mem_append] at he
            rcases he with he | he
            · exact hdupmem he
            · exact ihl src (x :: seen) (proc ++ [(x, [src])]) (pre ++ [x])
                hpre2 hseen2 e he hkind
  | succ f ihf =>
    intro l
    induction l with
    | nil =>
      intro src seen proc pre _ _ e he
      simp [getIncludesM] at he
    | cons x rest ihl =>
      intro src seen proc pre hpre hseen e he hkind
      have hpre2 : (fs src).getD [] = (pre ++ [x]) ++ rest := by
        rw [hpre]
        simp
      have hseen2 : ∀ y ∈ x :: seen, y ∈ pre ++ [x] := by
        intro y hy
        rcases List.mem_cons.mp hy with rfl | hy2
        · simp
        · exact List.mem_append_left _ (hseen y hy2)
      have hdupmem :
          e ∈ (if x ∈ seen then [dupErr x src] else ([] : List IncErr)) →
          2 ≤ ((fs e.fromFile).getD []).count e.file := by
        intro hd
        by_cases hx : x ∈ seen
        · rw [if_pos hx] at hd
          simp only [List.mem_singleton] at hd
          subst hd
          simp only [dupErr]
          exact two_le_count_split _ pre rest x hpre (hseen x hx)
        · rw [if_neg hx] at hd
          simp at hd
      simp only [getIncludesM] at he
      cases hfx : fs x with
      | none =>
        simp only [hfx] at he
        simp only [List.mem_cons] at he
        rcases he with rfl | he
        · simp at hkind
        · exact ihl src seen proc (pre ++ [x]) hpre2
            (fun y hy => List.mem_append_left _ (hseen y hy)) e he hkind
      | some incList =>
        simp only [hfx] at he
        by_cases hxsrc : x = src
        · rw [if_pos hxsrc] at he
          simp only [List.mem_append, List.mem_cons] at he
          rcases he with he | he | he
          · exact hdupmem he
          · subst he
            simp at hkind
          · exact ihl src (x :: seen) proc (pre ++ [x]) hpre2 hseen2 e he hkind
        · rw [if_neg hxsrc] at he
          by_cases hsm : (lookupProc proc x).isSome = true
          · rw [if_pos hsm] at he
            simp only [List.mem_append] at he
            rcases he with (he | he) | he
            · exact hdupmem he
            · have hcy := checkIncludesM_kind (addParent proc x src) (f + 1)
                src x src e he
              rw [hcy] at hkind
              simp at hkind
            · exact ihl src (x :: seen) (addParent proc x src) (pre ++ [x])
                hpre2 hseen2 e he hkind
          · rw [if_neg hsm] at he
            simp only [List.mem_append] at he
            rcases he with (he | he) | he
            · exact hdupmem he
            · exact ihf incList x [] (proc ++ [(x, [src])]) []
                (by simp [hfx]) (by simp) e he hkind
            · exact ihl src (x :: seen)
                ((getIncludesM fs f x incList [] (proc ++ [(x, [src])])).2)
                (pre ++ [x]) hpre2 hseen2 e he hkind

end Martian

namespace Martian

theorem lookupProc_append_of_isSome (proc l2 : Proc) (q : Path)
    (h : (lookupProc proc q).isSome = true) :
    lookupProc (proc ++ l2) q = lookupProc proc q := by
  induction proc with
  | nil => simp [lookupProc] at h
  | cons e rest ih =>
    by_cases heq : e.1 = q
    · simp [lookupProc, heq]
    · simp [lookupProc, heq] at h ⊢
      exact ih h

/-- The number of duplicate-include errors the `seen`-set logic emits for
path `p` while scanning the include list `l` with already-seen set `seen`:
one per occurrence of a resolvable `p` beyond the first sighting. -/
def frameDupCount (fs : Path → Option (List Path)) (p : Path)
    (l seen : List Path) : Nat :=
  if (fs p).isSome = true then
    (if p ∈ seen then l.count p else l.count p - 1)
  else 0

theorem frameDupCount_cons (fs : Path → Option (List Path)) (p x : Path)
    (rest seen : List Path) :
    frameDupCount fs p (x :: rest) seen =
      (if x ∈ seen ∧ x = p ∧ (fs p).isSome = true then 1 else 0) +
        frameDupCount fs p rest (x :: seen) := by
  unfold frameDupCount
  by_cases hfp : (fs p).isSome = true
  · by_cases hxp : x = p
    · subst hxp
      by_cases hx : x ∈ seen
      · simp [hx, hfp, List.count_cons_self, List.mem_cons]
        omega
      · simp [hx, hfp, List.count_cons_self, List.mem_cons]
    · have hpx : ¬ p = x := fun hc => hxp hc.symm
      have hcnt : (x :: rest).count p = rest.count p := by
        rw [List.count_cons]
        simp [hpx, hxp]
      have hcond : ¬ (x ∈ seen ∧ x = p ∧ (fs p).isSome = true) :=
        fun hc => hxp hc.2.1
      rw [if_neg hcond]
      by_cases hx : x ∈ seen <;>
        simp [hx, hfp, hcnt, List.mem_cons, hpx]
  · simp [hfp]

theorem frameDupCount_seen_shift (fs : Path → Option (List Path))
    (p x : Path) (rest seen : List Path) (h : fs x = none) :
    frameDupCount fs p rest (x :: seen) = frameDupCount fs p rest seen := by
  by_cases hxp : x = p
  · subst hxp
    simp [frameDupCount, h]
  · have hpx : ¬ p = x := fun hc => hxp hc.symm
    simp [frameDupCount, List.mem_cons, hpx]

end Martian

namespace Martian

theorem getIncludesM_proc_mono (fs : Path → Option (List Path)) :
    ∀ (fuel : Nat) (l : List Path) (src : Path) (seen : List Path)
      (proc : Proc) (q : Path),
      (lookupProc proc q).isSome = true →
      (lookupProc (getIncludesM fs fuel src l seen proc).2 q).isSome = true := by
  intro fuel
  induction fuel with
  | zero =>
    intro l
    induction l with
    | nil =>
      intro src seen proc q hq
      simpa [getIncludesM] using hq
    | cons x rest ihl =>
      intro src seen proc q hq
      simp only [getIncludesM]
      cases hfx : fs x with
      | none =>
        simp only [hfx]
        exact ihl src seen proc q hq
      | some incList =>
        simp only [hfx]
        by_cases hxsrc : x = src
        · rw [if_pos hxsrc]
          exact ihl src (x :: seen) proc q hq
        · rw [if_neg hxsrc]
          by_cases hsm : (lookupProc proc x).isSome = true
          · rw [if_pos hsm]
            exact ihl src (x :: seen) (addParent proc x src) q
              (by rw [lookupProc_addParent_isSome]; exact hq)
          · rw [if_neg hsm]
            exact ihl src (x :: seen) (proc ++ [(x, [src])]) q
              (by rw [lookupProc_append_of_isSome proc _ q hq]; exact hq)
  | succ f ihf =>
    intro l
    induction l with
    | nil =>
      intro src seen proc q hq
      simpa [getIncludesM] using hq
    | cons x rest ihl =>
      intro src seen proc q hq
      simp only [getIncludesM]
      cases hfx : fs x with
      | none =>
        simp only [hfx]
        exact ihl src seen proc q hq
      | some incList =>
        simp only [hfx]
        by_cases hxsrc : x = src
        · rw [if_pos hxsrc]
          exact ihl src (x :: seen) proc q hq
        · rw [if_neg hxsrc]
          by_cases hsm : (lookupProc proc x).isSome = true
          · rw [if_pos hsm]
            exact ihl src (x :: seen) (addParent proc x src) q
              (by rw [lookupProc_addParent_isSome]; exact hq)
          · rw [if_neg hsm]
            have hq1 : (lookupProc (proc ++ [(x, [src])]) q).isSome = true := by
              rw [lookupProc_append_of_isSome proc _ q hq]
              exact hq
            exact ihl src (x :: seen)
              ((getIncludesM fs f x incList [] (proc ++ [(x, [src])])).2) q
              (ihf incList x [] (proc ++ [(x, [src])]) q hq1)

end Martian

namespace Martian

theorem lookupProc_none_of_addParent_none (pp : Proc) (a b f : Path)
    (h : lookupProc (addParent pp a b) f = none) :
    lookupProc pp f = none := by
  rcases ho : lookupProc pp f with _ | v
  · rfl
  · have hs : (lookupProc (addParent pp a b) f).isSome = true := by
      rw [lookupProc_addParent_isSome]
      simp [ho]
    rw [h] at hs
    simp at hs

theorem lookupProc_none_of_append_none (pp l2 : Proc) (f : Path)
    (h : lookupProc (pp ++ l2) f = none) :
    lookupProc pp f = none := by
  rcases ho : lookupProc pp f with _ | v
  · rfl
  · rw [lookupProc_append_of_isSome pp l2 f (by simp [ho]), ho] at h
    simp at h

theorem lookupProc_none_of_result_none (fs : Path → Option (List Path))
    (fuel : Nat) (l : List Path) (src : Path) (seen : List Path)
    (proc : Proc) (f : Path)
    (h : lookupProc (getIncludesM fs fuel src l seen proc).2 f = none) :
    lookupProc proc f = none := by
  rcases ho : lookupProc proc f with _ | v
  · rfl
  · have hs := getIncludesM_proc_mono fs fuel l src seen proc f (by simp [ho])
    rw [h] at hs
    simp at hs

theorem getIncludesM_dup_from (fs : Path → Option (List Path)) :
    ∀ (fuel : Nat) (l : List Path) (src : Path) (seen : List Path)
      (proc : Proc),
      ∀ e ∈ (getIncludesM fs fuel src l seen proc).1,
        e.kind = IncErrKind.dupInclude →
        e.fromFile = src ∨ lookupProc proc e.fromFile = none := by
  intro fuel
  induction fuel with
  | zero =>
    intro l
    induction l with
    | nil =>
      intro src seen proc e he
      simp [getIncludesM] at he
    | cons x rest ihl =>
      intro src seen proc e he hkind
      have hdupmem :
          e ∈ (if x ∈ seen then [dupErr x src] else ([] : List IncErr)) →
          e.fromFile = src ∨ lookupProc proc e.fromFile = none := by
        intro hd
        by_cases hx : x ∈ seen
        · rw [if_pos hx] at hd
          simp only [List.mem_singleton] at hd
          subst hd
          exact Or.inl rfl
        · rw [if_neg hx] at hd
          simp at hd
      simp only [getIncludesM] at he
      cases hfx : fs x with
      | none =>
        simp only [hfx] at he
        simp only [List.mem_cons] at he
        rcases he with rfl | he
        · simp at hkind
        · exact ihl src seen proc e he hkind
      | some incList =>
        simp only [hfx] at he
        by_cases hxsrc : x = src
        · rw [if_pos hxsrc] at he
          simp only [List.mem_append, List.mem_cons] at he
          rcases he with he | he | he
          · exact hdupmem he
          · subst he
            simp at hkind
          · exact ihl src (x :: seen) proc e he hkind
        · rw [if_neg hxsrc] at he
          by_cases hsm : (lookupProc proc x).isSome = true
          · rw [if_pos hsm] at he
            simp only [List.mem_append] at he
            rcases he with (he | he) | he
            · exact hdupmem he
            · have hcy := checkIncludesM_kind (addParent proc x src) 0
                src x src e he
              rw [hcy] at hkind
              simp at hkind
            · rcases ihl src (x :: seen) (addParent proc x src) e he hkind
                with h | h
              · exact Or.inl h
              · exact Or.inr (lookupProc_none_of_addParent_none proc x src
                  e.fromFile h)
          · rw [if_neg hsm] at he
            simp only [List.mem_append] at he
            rcases he with he | he
            · exact hdupmem he
            · rcases ihl src (x :: seen) (proc ++ [(x, [src])]) e he hkind
                with h | h
              · exact Or.inl h
              · exact Or.inr (lookupProc_none_of_append_none proc _
                  e.fromFile h)
  | succ f ihf =>
    intro l
    induction l with
    | nil =>
      intro src seen proc e he
      simp [getIncludesM] at he
    | cons x rest ihl =>
      intro src seen proc e he hkind
      have hdupmem :
          e ∈ (if x ∈ seen then [dupErr x src] else ([] : List IncErr)) →
          e.fromFile = src ∨ lookupProc proc e.fromFile = none := by
        intro hd
        by_cases hx : x ∈ seen
        · rw [if_pos hx] at hd
          simp only [List.mem_singleton] at hd
          subst hd
          exact Or.inl rfl
        · rw [if_neg hx] at hd
          simp at hd
      simp only [getIncludesM] at he
      cases hfx : fs x with
      | none =>
        simp only [hfx] at he
        simp only [List.mem_cons] at he
        rcases he with rfl | he
        · simp at hkind
        · exact ihl src seen proc e he hkind
      | some incList =>
        simp only [hfx] at he
        by_cases hxsrc : x = src
        · rw [if_pos hxsrc] at he
          simp only [List.mem_append, List.mem_cons] at he
          rcases he with he | he | he
          · exact hdupmem he
          · subst he
            simp at hkind
          · exact ihl src (x :: seen) proc e he hkind
        · rw [if_neg hxsrc] at he
          by_cases hsm : (lookupProc proc x).isSome = true
          · rw [if_pos hsm] at he
            simp only [List.mem_append] at he
            rcases he with (he | he) | he
            · exact hdupmem he
            · have hcy := checkIncludesM_kind (addParent proc x src) (f + 1)
                src x src e he
              rw [hcy] at hkind
              simp at hkind
            · rcases ihl src (x :: seen) (addParent proc x src) e he hkind
                with h | h
              · exact Or.inl h
              · exact Or.inr (lookupProc_none_of_addParent_none proc x src
                  e.fromFile h)
          · rw [if_neg hsm] at he
            simp only [List.mem_append] at he
            have hxnone : lookupProc proc x = none := by
              rcases ho : lookupProc proc x with _ | v
              · rfl
              · rw [ho] at hsm
                simp at hsm
            rcases he with (he | he) | he
            · exact hdupmem he
            · rcases ihf incList x [] (proc ++ [(x, [src])]) e he hkind
                with h | h
              · rw [h]
                exact Or.inr hxnone
              · exact Or.inr (lookupProc_none_of_append_none proc _
                  e.fromFile h)
            · rcases ihl src (x :: seen)
                  ((getIncludesM fs f x incList [] (proc ++ [(x, [src])])).2)
                  e he hkind with h | h
              · exact Or.inl h
              · exact Or.inr (lookupProc_none_of_append_none proc _
                  e.fromFile
                  (lookupProc_none_of_result_none fs f incList x []
                    (proc ++ [(x, [src])]) e.fromFile h))

end Martian

namespace Martian

/-- Whenever the resolver processes a file's include list — `src` being
registered in `processedIncludes`, as the root is seeded and every nested
file is registered before parsing — the duplicate-include errors it
attributes to that file number exactly `frameDupCount`: one per occurrence
of a resolvable path beyond its first sighting, for every include graph
and every fuel. -/
theorem getIncludesM_dup_count (fs : Path → Option (List Path)) :
    ∀ (fuel : Nat) (l : List Path) (src : Path) (seen : List Path)
      (proc : Proc) (p : Path),
      (lookupProc proc src).isSome = true →
      (getIncludesM fs fuel src l seen proc).1.count (dupErr p src) =
        frameDupCount fs p l seen := by
  intro fuel
  induction fuel with
  | zero =>
    intro l
    induction l with
    | nil =>
      intro src seen proc p _
      simp [getIncludesM, frameDupCount, ite_self]
    | cons x rest ihl =>
      intro src seen proc p hsrc
      rw [frameDupCount_cons]
      cases hfx : fs x with
      | none =>
        have hcontrib : ¬ (x ∈ seen ∧ x = p ∧ (fs p).isSome = true) := by
          intro hc
          have := hc.2.2
          rw [← hc.2.1, hfx] at this
          simp at this
        have hsplit : (getIncludesM fs 0 src (x :: rest) seen proc).1 =
            { kind := IncErrKind.fileNotFound, file := x, fromFile := src } ::
              (getIncludesM fs 0 src rest seen proc).1 := by
          simp only [getIncludesM, hfx]
        rw [hsplit, List.count_cons_of_ne (by simp [dupErr]),
          ihl src seen proc p hsrc,
          frameDupCount_seen_shift fs p x rest seen hfx, if_neg hcontrib]
        omega
      | some incList =>
        have hdupcnt :
            (if x ∈ seen then [dupErr x src]
              else ([] : List IncErr)).count (dupErr p src) =
            if x ∈ seen ∧ x = p ∧ (fs p).isSome = true then 1 else 0 := by
          by_cases hx : x ∈ seen
          · rw [if_pos hx]
            by_cases hxp : x = p
            · subst hxp
              rw [if_pos ⟨hx, rfl, by simp [hfx]⟩]
              simp
            · rw [if_neg (fun hc => hxp hc.2.1)]
              exact count_dupErr_singleton x p src hxp
          · rw [if_neg hx, if_neg (fun hc => hx hc.1)]
            rfl
        by_cases hxsrc : x = src
        · have hsplit : (getIncludesM fs 0 src (x :: rest) seen proc).1 =
              (if x ∈ seen then [dupErr x src] else []) ++
                { kind := IncErrKind.selfInclude, file := x,
                  fromFile := src } ::
                (getIncludesM fs 0 src rest (x :: seen) proc).1 := by
            simp only [getIncludesM, hfx]
            rw [if_pos hxsrc]
          rw [hsplit, List.count_append,
            List.count_cons_of_ne (by simp [dupErr]), hdupcnt,
            ihl src (x :: seen) proc p hsrc]
        · by_cases hsm : (lookupProc proc x).isSome = true
          · have hsrc2 :
                (lookupProc (addParent proc x src) src).isSome = true := by
              rw [lookupProc_addParent_isSome]
              exact hsrc
            have hces0 : (checkIncludesM (addParent proc x src) 0
                src x src).count (dupErr p src) = 0 := by
              rw [List.count_eq_zero]
              intro hmem
              have hk := checkIncludesM_kind (addParent proc x src) 0
                src x src (dupErr p src) hmem
              simp [dupErr] at hk
            have hsplit : (getIncludesM fs 0 src (x :: rest) seen proc).1 =
                (if x ∈ seen then [dupErr x src] else []) ++
                  checkIncludesM (addParent proc x src) 0 src x src ++
                  (getIncludesM fs 0 src rest (x :: seen)
                    (addParent proc x src)).1 := by
              simp only [getIncludesM, hfx]
              rw [if_neg hxsrc, if_pos hsm]
            rw [hsplit, List.count_append, List.count_append, hdupcnt, hces0,
              ihl src (x :: seen) (addParent proc x src) p hsrc2]
            omega
          · have hsrc2 :
                (lookupProc (proc ++ [(x, [src])]) src).isSome = true := by
              rw [lookupProc_append_of_isSome proc _ src hsrc]
              exact hsrc
            have hsplit : (getIncludesM fs 0 src (x :: rest) seen proc).1 =
                (if x ∈ seen then [dupErr x src] else []) ++
                  (getIncludesM fs 0 src rest (x :: seen)
                    (proc ++ [(x, [src])])).1 := by
              simp only [getIncludesM, hfx]
              rw [if_neg hxsrc, if_neg hsm]
            rw [hsplit, List.count_append, hdupcnt,
              ihl src (x :: seen) (proc ++ [(x, [src])]) p hsrc2]
  | succ f ihf =>
    intro l
    induction l with
    | nil =>
      intro src seen proc p _
      simp [getIncludesM, frameDupCount, ite_self]
    | cons x rest ihl =>
      intro src seen proc p hsrc
      rw [frameDupCount_cons]
      cases hfx : fs x with
      | none =>
        have hcontrib : ¬ (x ∈ seen ∧ x = p ∧ (fs p).isSome = true) := by
          intro hc
          have := hc.2.2
          rw [← hc.2.1, hfx] at this
          simp at this
        have hsplit : (getIncludesM fs (f + 1) src (x :: rest) seen proc).1 =
            { kind := IncErrKind.fileNotFound, file := x, fromFile := src } ::
              (getIncludesM fs (f + 1) src rest seen proc).1 := by
          simp only [getIncludesM, hfx]
        rw [hsplit, List.count_cons_of_ne (by simp [dupErr]),
          ihl src seen proc p hsrc,
          frameDupCount_seen_shift fs p x rest seen hfx, if_neg hcontrib]
        omega
      | some incList =>
        have hdupcnt :
            (if x ∈ seen then [dupErr x src]
              else ([] : List IncErr)).count (dupErr p src) =
            if x ∈ seen ∧ x = p ∧ (fs p).isSome = true then 1 else 0 := by
          by_cases hx : x ∈ seen
          · rw [if_pos hx]
            by_cases hxp : x = p
            · subst hxp
              rw [if_pos ⟨hx, rfl, by simp [hfx]⟩]
              simp
            · rw [if_neg (fun hc => hxp hc.2.1)]
              exact count_dupErr_singleton x p src hxp
          · rw [if_neg hx, if_neg (fun hc => hx hc.1)]
            rfl
        by_cases hxsrc : x = src
        · have hsplit :
              (getIncludesM fs (f + 1) src (x :: rest) seen proc).1 =
              (if x ∈ seen then [dupErr x src] else []) ++
                { kind := IncErrKind.selfInclude, file := x,
                  fromFile := src } ::
                (getIncludesM fs (f + 1) src rest (x :: seen) proc).1 := by
            simp only [getIncludesM, hfx]
            rw [if_pos hxsrc]
          rw [hsplit, List.count_append,
            List.count_cons_of_ne (by simp [dupErr]), hdupcnt,
            ihl src (x :: seen) proc p hsrc]
        · by_cases hsm : (lookupProc proc x).isSome = true
          · have hsrc2 :
                (lookupProc (addParent proc x src) src).isSome = true := by
              rw [lookupProc_addParent_isSome]
              exact hsrc
            have hces0 : (checkIncludesM (addParent proc x src) (f + 1)
                src x src).count (dupErr p src) = 0 := by
              rw [List.count_eq_zero]
              intro hmem
              have hk := checkIncludesM_kind (addParent proc x src) (f + 1)
                src x src (dupErr p src) hmem
              simp [dupErr] at hk
            have hsplit :
                (getIncludesM fs (f + 1) src (x :: rest) seen proc).1 =
                (if x ∈ seen then [dupErr x src] else []) ++
                  checkIncludesM (addParent proc x src) (f + 1) src x src ++
                  (getIncludesM fs (f + 1) src rest (x :: seen)
                    (addParent proc x src)).1 := by
              simp only [getIncludesM, hfx]
              rw [if_neg hxsrc, if_pos hsm]
            rw [hsplit, List.count_append, List.count_append, hdupcnt, hces0,
              ihl src (x :: seen) (addParent proc x src) p hsrc2]
            omega
          · have hsrc1 :
                (lookupProc (proc ++ [(x, [src])]) src).isSome = true := by
              rw [lookupProc_append_of_isSome proc _ src hsrc]
              exact hsrc
            have hsrc2 : (lookupProc ((getIncludesM fs f x incList []
                (proc ++ [(x, [src])])).2) src).isSome = true :=
              getIncludesM_proc_mono fs f incList x []
                (proc ++ [(x, [src])]) src hsrc1
            have hr10 : ((getIncludesM fs f x incList []
                (proc ++ [(x, [src])])).1).count (dupErr p src) = 0 := by
              rw [List.count_eq_zero]
              intro hmem
              rcases getIncludesM_dup_from fs f incList x []
                  (proc ++ [(x, [src])]) (dupErr p src) hmem rfl with h | h
              · simp only [dupErr] at h
                exact hxsrc h.symm
              · simp only [dupErr] at h
                rw [h] at hsrc1
                simp at hsrc1
            have hsplit :
                (getIncludesM fs (f + 1) src (x :: rest) seen proc).1 =
                (if x ∈ seen then [dupErr x src] else []) ++
                  (getIncludesM fs f x incList []
                    (proc ++ [(x, [src])])).1 ++
                  (getIncludesM fs (f + 1) src rest (x :: seen)
                    ((getIncludesM fs f x incList []
                      (proc ++ [(x, [src])])).2)).1 := by
              simp only [getIncludesM, hfx]
              rw [if_neg hxsrc, if_neg hsm]
            rw [hsplit, List.count_append, List.count_append, hdupcnt, hr10,
              ihl src (x :: seen) ((getIncludesM fs f x incList []
                (proc ++ [(x, [src])])).2) p hsrc2]
            omega

end Martian

namespace Martian

/-- A diamond include graph: file a includes b and c; b and c each include
d.  So d is included twice via distinct paths in the same subtree. -/
def diamondFs : Path → Option (List Path) :=
  fun p =>
    if p = "a" then some ["b", "c"]
    else if p = "b" then some ["d"]
    else if p = "c" then some ["d"]
    else if p = "d" then some []
    else none

/-- Counterexample for C3: in the diamond include graph, file d is reached
twice through two different including files (b and c, as the processed
map's IncludedFrom list records), yet resolution reports no error at all —
in particular no duplicate-include error — contradicting the claim that
such a configuration produces a duplicate-include error. -/
theorem c3_dup_include_counterexample :
    (parseSourceIncludes diamondFs 8 "a").1 = [] ∧
    parentsOf (parseSourceIncludes diamondFs 8 "a").2 "d" = ["b", "c"] := by
  constructor <;>
    simp [parseSourceIncludes, diamondFs, getIncludesM, lookupProc, addParent,
      checkIncludesM, parentsOf, dupErr]

/-- C3 (amended): a duplicate-include error arises exactly from a single
file's own include list repeating a resolved path.  (1) Soundness, all
graphs: any reported duplicate names a file occurring at least twice in
the reporting file's own include list.  (2) Exact count, all graphs:
whenever the resolver processes a registered file's include list — every
frame it runs satisfies this, the root being seeded and nested files
registered before parsing — the duplicate errors attributed to that file
number exactly one per occurrence of a resolvable path beyond its first
sighting.  (3) End to end, all graphs: a full parse reports exactly
`count − 1` duplicates of each resolvable path `p` attributed to the root
file, and none for unresolvable paths.  (A file merely reachable twice
through two different including files yields no duplicate error: see the
counterexample.) -/
theorem c3_dup_include_amended :
    (∀ (fs : Path → Option (List Path)) (fuel : Nat) (root : Path),
      ∀ e ∈ (parseSourceIncludes fs fuel root).1,
        e.kind = IncErrKind.dupInclude →
        2 ≤ ((fs e.fromFile).getD []).count e.file) ∧
    (∀ (fs : Path → Option (List Path)) (fuel : Nat) (src : Path)
        (l seen : List Path) (proc : Proc) (p : Path),
      (lookupProc proc src).isSome = true →
      (getIncludesM fs fuel src l seen proc).1.count (dupErr p src) =
        frameDupCount fs p l seen) ∧
    (∀ (fs : Path → Option (List Path)) (fuel : Nat) (root p : Path),
      (parseSourceIncludes fs fuel root).1.count (dupErr p root) =
        if (fs p).isSome = true then ((fs root).getD []).count p - 1
        else 0) := by
  refine ⟨?_, ?_, ?_⟩
  · intro fs fuel root e he hkind
    exact getIncludesM_dup_sound fs fuel ((fs root).getD []) root []
      [(root, [])] [] rfl (by simp) e he hkind
  · intro fs fuel src l seen proc p hsrc
    exact getIncludesM_dup_count fs fuel l src seen proc p hsrc
  · intro fs fuel root p
    have h := getIncludesM_dup_count fs fuel ((fs root).getD []) root []
      [(root, [])] p (by simp [lookupProc])
    unfold parseSourceIncludes
    rw [h]
    simp [frameDupCount]

/-- A nested include graph where file a lists b twice and b has its own
include (c): the case beyond depth-one leaf graphs. -/
def nestedDoubleFs : Path → Option (List Path) :=
  fun p =>
    if p = "a" then some ["b", "b"]
    else if p = "b" then some ["c"]
    else if p = "c" then some []
    else none

/-- Witness for the amended C3: in the nested graph, the frame parsing
file a (registered in the processed map) attributes to it exactly the
`frameDupCount` number of duplicate errors for b — one, since b is listed
twice and resolvable. -/
theorem c3_dup_include_amended_witness :
    (getIncludesM nestedDoubleFs 4 "a" ["b", "b"] []
        [("a", [])]).1.count (dupErr "b" "a") =
      frameDupCount nestedDoubleFs "b" ["b", "b"] [] :=
  c3_dup_include_amended.2.1 nestedDoubleFs 4 "a" ["b", "b"] []
    [("a", [])] "b" (by simp [lookupProc])

end Martian
